import Mathlib

/-!
Shallow embedding of the LPT scheduler (`lpt.py`) and the optimized LPT
scheduler (`optimized_lpt.py`), together with theorems checking the
specification's claims against the code.

Conventions: job lengths and loads are natural numbers.  A Python call that
raises an exception (`min`/`max` on an empty sequence, division by zero) is
modelled as `none`; a successful return is `some`.
-/

/-- Python's `min(x :: rest)`: a left fold of binary `min` over the tail. -/
def pyMin (x : Nat) (rest : List Nat) : Nat := rest.foldl Nat.min x

/-- Python's `max(x :: rest)`: a left fold of binary `max` over the tail. -/
def pyMax (x : Nat) (rest : List Nat) : Nat := rest.foldl Nat.max x

/-- The `enumerate` scan inside `LPT._minloadproc`: the first index whose
entry equals `minload`.  `none` models the implicit fall-through (no
`return` statement hit), in which Python would yield `None`. -/
def minScan (minload : Nat) : List Nat → Option Nat
  | [] => none
  | load :: rest =>
      if load = minload then some 0 else (minScan minload rest).map (· + 1)

/-- `LPT._minloadproc(loads)`: `min(loads)` raises `ValueError` on an empty
list (modelled `none`); otherwise scan for the first processor whose load
equals the minimum. -/
def minloadproc (loads : List Nat) : Option Nat :=
  match loads with
  | [] => none
  | x :: rest => minScan (pyMin x rest) (x :: rest)

/-- Step 4 of `LPT.lpt_algorithm`: assign each job (in sorted order) to the
processor returned by `_minloadproc`, appending it to that bin and adding its
length to that bin's load counter. -/
def lptLoop : List Nat → List (List Nat) → List Nat →
    Option (List (List Nat) × List Nat)
  | [], scheduled, loads => some (scheduled, loads)
  | job :: rest, scheduled, loads =>
      match minloadproc loads with
      | none => none
      | some i =>
          lptLoop rest (scheduled.set i (scheduled.getD i [] ++ [job]))
            (loads.set i (loads.getD i 0 + job))

/-- `LPT.lpt_algorithm(jobs, processors)`.  `sorted(self.jobs, reverse=True)`
is Python's stable descending sort; on bare `Nat` lengths its output is the
unique `≥`-sorted permutation of the input, here `List.insertionSort (· ≥ ·)`.
The bins and load counters both start as `processors` empty entries. -/
def lpt_algorithm (jobs : List Nat) (processors : Nat) :
    Option (List (List Nat) × List Nat) :=
  lptLoop (List.insertionSort (· ≥ ·) jobs)
    (List.replicate processors []) (List.replicate processors 0)

/-- `OptimizedLPT._get_optimal_processors`: `max([])` raises `ValueError`
(modelled `none`); with `max(jobs) = 0` the division `total / maxjob` raises
`ZeroDivisionError` (modelled `none`); otherwise
`ideal = int(ceil(total / maxjob))`, which on these integer inputs is the
exact ceiling division `(total + maxjob - 1) / maxjob`, and the result is
`ideal` if `ideal < processors`, else `processors`. -/
def get_optimal_processors (jobs : List Nat) (processors : Nat) : Option Nat :=
  match jobs with
  | [] => none
  | j :: rest =>
      let maxjob := pyMax j rest
      if maxjob = 0 then none
      else
        let total := (j :: rest).sum
        let ideal := (total + maxjob - 1) / maxjob
        some (if ideal < processors then ideal else processors)

/-- `OptimizedLPT.run`: derive the optimal processor count, run the LPT
scheduler with it, then append `processors - optimal` empty bins and zero
loads at the tail. -/
def optimizedRun (jobs : List Nat) (processors : Nat) :
    Option (List (List Nat) × List Nat) :=
  match get_optimal_processors jobs processors with
  | none => none
  | some op =>
      match lpt_algorithm jobs op with
      | none => none
      | some (scheduled, loads) =>
          some (scheduled ++ List.replicate (processors - op) [],
                loads ++ List.replicate (processors - op) 0)

/-- From the claim wording: the lowest-indexed bin whose current load is
minimal (first index whose load is less than or equal to every load). -/
def lowestMinIdx (loads : List Nat) : Nat :=
  loads.findIdx (fun x => loads.all (fun y => decide (x ≤ y)))

/-- From the claim wording: append the job to the lowest-indexed bin of
minimal load and increase that bin's load counter by the job's length. -/
def claimStep (p : List (List Nat) × List Nat) (job : Nat) :
    List (List Nat) × List Nat :=
  (p.1.set (lowestMinIdx p.2) (p.1.getD (lowestMinIdx p.2) [] ++ [job]),
   p.2.set (lowestMinIdx p.2) (p.2.getD (lowestMinIdx p.2) 0 + job))

/-- From the claim wording: `min(ceil(sum(jobs) / max(jobs)), processors)`. -/
def claimOptimalP (jobs : List Nat) (processors : Nat) : Nat :=
  min (jobs.sum ⌈/⌉ jobs.foldl Nat.max 0) processors

/-- Maximum of a list of naturals (0 on the empty list); used for the
makespan `max(Loads)`. -/
def listMax (l : List Nat) : Nat := l.foldr Nat.max 0

/-- From the claim wording: the load an assignment `f` of the jobs to `m`
bins places on bin `i` — the total length of the jobs sent to `i`. -/
def assignLoad (jobs : List Nat) (m : Nat) (f : Fin jobs.length → Fin m)
    (i : Fin m) : Nat :=
  (((List.finRange jobs.length).filter (fun j => decide (f j = i))).map
    jobs.get).sum

/-- From the claim wording: the makespan of an assignment — the maximum bin
load. -/
def assignMakespan (jobs : List Nat) (m : Nat)
    (f : Fin jobs.length → Fin m) : Nat :=
  listMax ((List.finRange m).map (assignLoad jobs m f))

/-- From the claim wording: the optimal makespan — the minimum over all
assignments of the jobs to `m` bins of the maximum bin load (0 when
`m = 0`, where no assignment of a non-empty job list exists). -/
def optMakespan (jobs : List Nat) (m : Nat) : Nat :=
  if h : 0 < m then
    Finset.univ.inf'
      (Finset.univ_nonempty_iff.mpr ⟨fun _ => ⟨0, h⟩⟩)
      (assignMakespan jobs m)
  else 0

/-! ### Facts about the Python `min` / `max` folds -/

theorem pyMin_cons (x y : Nat) (t : List Nat) :
    pyMin x (y :: t) = pyMin (Nat.min x y) t := rfl

theorem pyMax_cons (x y : Nat) (t : List Nat) :
    pyMax x (y :: t) = pyMax (Nat.max x y) t := rfl

theorem pyMin_le_mem (rest : List Nat) :
    ∀ (x : Nat), ∀ y ∈ x :: rest, pyMin x rest ≤ y := by
  induction rest with
  | nil =>
      intro x y hy
      simp only [List.mem_singleton] at hy
      subst hy
      exact le_rfl
  | cons z t ih =>
      intro x y hy
      rw [pyMin_cons]
      rcases List.mem_cons.1 hy with h | h
      · subst h
        exact le_trans (ih (Nat.min y z) _ (List.mem_cons_self _ _))
          (Nat.min_le_left y z)
      · rcases List.mem_cons.1 h with h2 | h2
        · subst h2
          exact le_trans (ih (Nat.min x y) _ (List.mem_cons_self _ _))
            (Nat.min_le_right x y)
        · exact ih (Nat.min x z) y (List.mem_cons_of_mem _ h2)

theorem pyMin_mem (rest : List Nat) : ∀ (x : Nat), pyMin x rest ∈ x :: rest := by
  induction rest with
  | nil => intro x; simp [pyMin]
  | cons z t ih =>
      intro x
      rw [pyMin_cons]
      rcases List.mem_cons.1 (ih (Nat.min x z)) with h | h
      · rw [h]
        have h4 : Nat.min x z = x ∨ Nat.min x z = z := by
          rcases Nat.le_total x z with h5 | h5
          · exact Or.inl (min_eq_left h5)
          · exact Or.inr (min_eq_right h5)
        rcases h4 with h4 | h4 <;> rw [h4]
        · exact List.mem_cons_self _ _
        · exact List.mem_cons_of_mem _ (List.mem_cons_self _ _)
      · exact List.mem_cons_of_mem _ (List.mem_cons_of_mem _ h)

theorem pyMax_mem (rest : List Nat) : ∀ (x : Nat), pyMax x rest ∈ x :: rest := by
  induction rest with
  | nil => intro x; simp [pyMax]
  | cons z t ih =>
      intro x
      rw [pyMax_cons]
      rcases List.mem_cons.1 (ih (Nat.max x z)) with h | h
      · rw [h]
        have h4 : Nat.max x z = x ∨ Nat.max x z = z := by
          rcases Nat.le_total x z with h5 | h5
          · exact Or.inr (max_eq_right h5)
          · exact Or.inl (max_eq_left h5)
        rcases h4 with h4 | h4 <;> rw [h4]
        · exact List.mem_cons_self _ _
        · exact List.mem_cons_of_mem _ (List.mem_cons_self _ _)
      · exact List.mem_cons_of_mem _ (List.mem_cons_of_mem _ h)

theorem foldl_max_zero (j : Nat) (rest : List Nat) :
    (j :: rest).foldl Nat.max 0 = pyMax j rest := by
  simp only [List.foldl_cons, pyMax, Nat.zero_max]

/-! ### Facts about the `_minloadproc` scan -/

theorem minScan_lt_length (m : Nat) :
    ∀ (l : List Nat) (k : Nat), minScan m l = some k → k < l.length := by
  intro l
  induction l with
  | nil => intro k h; simp [minScan] at h
  | cons load rest ih =>
      intro k h
      by_cases hl : load = m
      · simp only [minScan, if_pos hl, Option.some.injEq] at h
        subst h
        simp
      · simp only [minScan, if_neg hl, Option.map_eq_some'] at h
        obtain ⟨k2, hk2, hkeq⟩ := h
        have := ih k2 hk2
        subst hkeq
        simp only [List.length_cons]
        omega

theorem minScan_getD (m : Nat) :
    ∀ (l : List Nat) (k : Nat), minScan m l = some k → l.getD k 0 = m := by
  intro l
  induction l with
  | nil => intro k h; simp [minScan] at h
  | cons load rest ih =>
      intro k h
      by_cases hl : load = m
      · simp only [minScan, if_pos hl, Option.some.injEq] at h
        subst h
        simpa using hl
      · simp only [minScan, if_neg hl, Option.map_eq_some'] at h
        obtain ⟨k2, hk2, hkeq⟩ := h
        subst hkeq
        simpa using ih k2 hk2

theorem minScan_eq_findIdx (loads : List Nat) (m : Nat)
    (hmin : ∀ y ∈ loads, m ≤ y) :
    ∀ suffix : List Nat, (∀ y ∈ suffix, y ∈ loads) → m ∈ suffix →
      minScan m suffix =
        some (suffix.findIdx (fun x => loads.all (fun y => decide (x ≤ y)))) := by
  intro suffix
  induction suffix with
  | nil => intro _ hm; simp at hm
  | cons load rest ih =>
      intro hsub hm
      by_cases hl : load = m
      · subst hl
        have hpred : (loads.all fun y => decide (load ≤ y)) = true := by
          simp only [List.all_eq_true, decide_eq_true_eq]
          exact hmin
        simp [minScan, List.findIdx_cons, hpred]
      · have hmr : m ∈ rest := by
          rcases List.mem_cons.1 hm with h | h
          · exact absurd h.symm hl
          · exact h
        have hml : m ∈ loads := hsub m (List.mem_cons_of_mem _ hmr)
        have hpred : (loads.all (fun y => decide (load ≤ y))) = false := by
          apply Bool.eq_false_iff.mpr
          intro hall
          rw [List.all_eq_true] at hall
          have h1 : load ≤ m := by simpa using hall m hml
          have h2 : m ≤ load := hmin load (hsub load (List.mem_cons_self _ _))
          exact hl (le_antisymm h1 h2)
        simp only [minScan, if_neg hl]
        rw [ih (fun y hy => hsub y (List.mem_cons_of_mem _ hy)) hmr]
        simp [List.findIdx_cons, hpred]

/-! ### Characterisation of `minloadproc` -/

theorem minloadproc_eq_lowestMinIdx (loads : List Nat) (h : loads ≠ []) :
    minloadproc loads = some (lowestMinIdx loads) := by
  cases loads with
  | nil => exact absurd rfl h
  | cons x rest =>
      show minScan (pyMin x rest) (x :: rest) = _
      exact minScan_eq_findIdx (x :: rest) (pyMin x rest) (pyMin_le_mem rest x)
        (x :: rest) (fun y hy => hy) (pyMin_mem rest x)

theorem minloadproc_lt_length (loads : List Nat) (i : Nat)
    (h : minloadproc loads = some i) : i < loads.length := by
  cases loads with
  | nil => exact absurd h (by simp [minloadproc])
  | cons x rest => exact minScan_lt_length (pyMin x rest) (x :: rest) i h

theorem minloadproc_getD_min (loads : List Nat) (i : Nat)
    (h : minloadproc loads = some i) : ∀ y ∈ loads, loads.getD i 0 ≤ y := by
  cases loads with
  | nil => exact absurd h (by simp [minloadproc])
  | cons x rest =>
      have hg := minScan_getD (pyMin x rest) (x :: rest) i h
      rw [hg]
      exact pyMin_le_mem rest x

/-! ### Invariants of the assignment loop -/

theorem lptLoop_lengths (js : List Nat) :
    ∀ (s : List (List Nat)) (l : List Nat) s2 l2,
      lptLoop js s l = some (s2, l2) → s2.length = s.length ∧ l2.length = l.length := by
  induction js with
  | nil =>
      intro s l s2 l2 h
      simp only [lptLoop, Option.some.injEq, Prod.mk.injEq] at h
      rw [← h.1, ← h.2]
      exact ⟨rfl, rfl⟩
  | cons job rest ih =>
      intro s l s2 l2 h
      cases hm : minloadproc l with
      | none => rw [lptLoop, hm] at h; exact absurd h (by simp)
      | some i =>
          rw [lptLoop, hm] at h
          have := ih _ _ _ _ h
          simpa [List.length_set] using this

theorem lptLoop_eq_foldl (js : List Nat) :
    ∀ (s : List (List Nat)) (l : List Nat), l ≠ [] →
      lptLoop js s l = some (js.foldl claimStep (s, l)) := by
  induction js with
  | nil => intro s l _; rfl
  | cons job rest ih =>
      intro s l h
      have hm := minloadproc_eq_lowestMinIdx l h
      rw [lptLoop, hm]
      have hne : l.set (lowestMinIdx l) (l.getD (lowestMinIdx l) 0 + job) ≠ [] := by
        intro hc
        apply h
        have := congrArg List.length hc
        rw [List.length_set] at this
        exact List.eq_nil_of_length_eq_zero this
      show lptLoop rest (s.set (lowestMinIdx l) (s.getD (lowestMinIdx l) [] ++ [job]))
          (l.set (lowestMinIdx l) (l.getD (lowestMinIdx l) 0 + job)) =
        some (List.foldl claimStep (s, l) (job :: rest))
      rw [ih _ _ hne]
      rfl

theorem sum_set_getD_add (l : List Nat) :
    ∀ (i : Nat), i < l.length →
      ∀ x : Nat, (l.set i (l.getD i 0 + x)).sum = l.sum + x := by
  induction l with
  | nil => intro i h; simp at h
  | cons a t ih =>
      intro i h x
      cases i with
      | zero => simp [List.sum_cons]; omega
      | succ n =>
          simp only [List.length_cons, Nat.succ_lt_succ_iff] at h
          simp only [List.set, List.getD_cons_succ, List.sum_cons]
          rw [ih n h x]
          omega

theorem lptLoop_sum (js : List Nat) :
    ∀ (s : List (List Nat)) (l : List Nat) s2 l2,
      lptLoop js s l = some (s2, l2) → l2.sum = l.sum + js.sum := by
  induction js with
  | nil =>
      intro s l s2 l2 h
      simp only [lptLoop, Option.some.injEq, Prod.mk.injEq] at h
      rw [← h.2]
      simp
  | cons job rest ih =>
      intro s l s2 l2 h
      cases hm : minloadproc l with
      | none => rw [lptLoop, hm] at h; exact absurd h (by simp)
      | some i =>
          rw [lptLoop, hm] at h
          have hlt := minloadproc_lt_length l i hm
          have := ih _ _ _ _ h
          rw [sum_set_getD_add l i hlt job] at this
          rw [this, List.sum_cons]
          omega

theorem join_set_append (s : List (List Nat)) :
    ∀ (i : Nat), i < s.length →
      ∀ x : Nat, (s.set i (s.getD i [] ++ [x])).flatten.Perm (x :: s.flatten) := by
  induction s with
  | nil => intro i h; simp at h
  | cons a t ih =>
      intro i h x
      cases i with
      | zero =>
          simp only [List.set, List.getD_cons_zero, List.flatten_cons]
          rw [List.append_assoc]
          exact List.perm_middle
      | succ n =>
          simp only [List.length_cons, Nat.succ_lt_succ_iff] at h
          simp only [List.set, List.getD_cons_succ, List.flatten_cons]
          exact ((ih n h x).append_left a).trans List.perm_middle

theorem lptLoop_join (js : List Nat) :
    ∀ (s : List (List Nat)) (l : List Nat) s2 l2, s.length = l.length →
      lptLoop js s l = some (s2, l2) → s2.flatten.Perm (js ++ s.flatten) := by
  induction js with
  | nil =>
      intro s l s2 l2 _ h
      simp only [lptLoop, Option.some.injEq, Prod.mk.injEq] at h
      rw [← h.1]
      simp
  | cons job rest ih =>
      intro s l s2 l2 hlen h
      cases hm : minloadproc l with
      | none => rw [lptLoop, hm] at h; exact absurd h (by simp)
      | some i =>
          rw [lptLoop, hm] at h
          have hlt : i < s.length := hlen ▸ minloadproc_lt_length l i hm
          have hlen2 : (s.set i (s.getD i [] ++ [job])).length =
              (l.set i (l.getD i 0 + job)).length := by
            simp [List.length_set, hlen]
          have hperm := ih _ _ _ _ hlen2 h
          refine hperm.trans ?_
          refine (List.Perm.append_left rest (join_set_append s i hlt job)).trans ?_
          exact List.perm_middle

/-! ### Facts about the two entry points -/

theorem replicate_zero_ne_nil (m : Nat) (hm : 1 ≤ m) :
    List.replicate m (0 : Nat) ≠ [] := by
  intro hc
  have := congrArg List.length hc
  simp [List.length_replicate] at this
  omega

theorem lpt_algorithm_eq_foldl (jobs : List Nat) (m : Nat) (hm : 1 ≤ m) :
    lpt_algorithm jobs m =
      some ((List.insertionSort (· ≥ ·) jobs).foldl claimStep
        (List.replicate m [], List.replicate m 0)) :=
  lptLoop_eq_foldl _ _ _ (replicate_zero_ne_nil m hm)

theorem lpt_algorithm_lengths (jobs : List Nat) (m : Nat)
    (s : List (List Nat)) (l : List Nat) (h : lpt_algorithm jobs m = some (s, l)) :
    s.length = m ∧ l.length = m := by
  have := lptLoop_lengths _ _ _ _ _ h
  simpa [List.length_replicate] using this

theorem lpt_algorithm_sum (jobs : List Nat) (m : Nat)
    (s : List (List Nat)) (l : List Nat) (h : lpt_algorithm jobs m = some (s, l)) :
    l.sum = jobs.sum := by
  have hs := lptLoop_sum _ _ _ _ _ h
  have hrep : (List.replicate m (0 : Nat)).sum = 0 := by
    simp [List.sum_replicate]
  have hperm : (List.insertionSort (· ≥ ·) jobs).sum = jobs.sum :=
    (List.perm_insertionSort _ jobs).sum_eq
  rw [hrep, hperm] at hs
  omega

theorem lpt_algorithm_flatten (jobs : List Nat) (m : Nat)
    (s : List (List Nat)) (l : List Nat) (h : lpt_algorithm jobs m = some (s, l)) :
    s.flatten.Perm jobs := by
  have hlen : (List.replicate m ([] : List Nat)).length =
      (List.replicate m (0 : Nat)).length := by
    simp [List.length_replicate]
  have hj := lptLoop_join _ _ _ _ _ hlen h
  have hrep : (List.replicate m ([] : List Nat)).flatten = [] := by
    induction m with
    | zero => rfl
    | succ n ihn => simp [List.replicate, ihn]
  rw [hrep, List.append_nil] at hj
  exact hj.trans (List.perm_insertionSort _ jobs)

theorem get_optimal_some (j : Nat) (rest : List Nat) (hmax : pyMax j rest ≠ 0)
    (m : Nat) :
    get_optimal_processors (j :: rest) m = some (claimOptimalP (j :: rest) m) := by
  show (if pyMax j rest = 0 then none else _) = _
  rw [if_neg hmax]
  have : claimOptimalP (j :: rest) m =
      if ((j :: rest).sum + pyMax j rest - 1) / pyMax j rest < m
      then ((j :: rest).sum + pyMax j rest - 1) / pyMax j rest else m := by
    rw [claimOptimalP, foldl_max_zero, Nat.ceilDiv_eq_add_pred_div]
    rcases Nat.lt_or_ge (((j :: rest).sum + pyMax j rest - 1) / pyMax j rest) m with
      h2 | h2
    · rw [if_pos h2, min_eq_left (Nat.le_of_lt h2)]
    · rw [if_neg (Nat.not_lt.mpr h2), min_eq_right h2]
  rw [this]

theorem get_optimal_le (jobs : List Nat) (m op : Nat)
    (h : get_optimal_processors jobs m = some op) : op ≤ m := by
  cases jobs with
  | nil => exact absurd h (by simp [get_optimal_processors])
  | cons j rest =>
      by_cases hmax : pyMax j rest = 0
      · rw [show get_optimal_processors (j :: rest) m =
            (if pyMax j rest = 0 then none else some _) from rfl, if_pos hmax] at h
        exact absurd h (by simp)
      · rw [show get_optimal_processors (j :: rest) m =
            (if pyMax j rest = 0 then none
             else some (if ((j :: rest).sum + pyMax j rest - 1) / pyMax j rest < m
               then ((j :: rest).sum + pyMax j rest - 1) / pyMax j rest else m))
            from rfl, if_neg hmax, Option.some.injEq] at h
        rcases Nat.lt_or_ge (((j :: rest).sum + pyMax j rest - 1) / pyMax j rest) m with
          h2 | h2
        · rw [if_pos h2] at h
          omega
        · rw [if_neg (Nat.not_lt.mpr h2)] at h
          omega

theorem optimizedRun_lengths (jobs : List Nat) (m : Nat)
    (s : List (List Nat)) (l : List Nat) (h : optimizedRun jobs m = some (s, l)) :
    s.length = m ∧ l.length = m := by
  cases hg : get_optimal_processors jobs m with
  | none => simp [optimizedRun, hg] at h
  | some op =>
      simp only [optimizedRun, hg] at h
      cases hl : lpt_algorithm jobs op with
      | none => simp [hl] at h
      | some r =>
          obtain ⟨s0, l0⟩ := r
          simp only [hl, Option.some.injEq, Prod.mk.injEq] at h
          have hlen := lpt_algorithm_lengths jobs op s0 l0 hl
          have hop := get_optimal_le jobs m op hg
          rw [← h.1, ← h.2]
          simp only [List.length_append, List.length_replicate]
          omega

theorem optimizedRun_sum (jobs : List Nat) (m : Nat)
    (s : List (List Nat)) (l : List Nat) (h : optimizedRun jobs m = some (s, l)) :
    l.sum = jobs.sum := by
  cases hg : get_optimal_processors jobs m with
  | none => simp [optimizedRun, hg] at h
  | some op =>
      simp only [optimizedRun, hg] at h
      cases hl : lpt_algorithm jobs op with
      | none => simp [hl] at h
      | some r =>
          obtain ⟨s0, l0⟩ := r
          simp only [hl, Option.some.injEq, Prod.mk.injEq] at h
          have hsum := lpt_algorithm_sum jobs op s0 l0 hl
          rw [← h.2]
          simp [List.sum_append, List.sum_replicate, hsum]

theorem optimizedRun_flatten (jobs : List Nat) (m : Nat)
    (s : List (List Nat)) (l : List Nat) (h : optimizedRun jobs m = some (s, l)) :
    s.flatten.Perm jobs := by
  cases hg : get_optimal_processors jobs m with
  | none => simp [optimizedRun, hg] at h
  | some op =>
      simp only [optimizedRun, hg] at h
      cases hl : lpt_algorithm jobs op with
      | none => simp [hl] at h
      | some r =>
          obtain ⟨s0, l0⟩ := r
          simp only [hl, Option.some.injEq, Prod.mk.injEq] at h
          have hfl := lpt_algorithm_flatten jobs op s0 l0 hl
          have hrep : (List.replicate (m - op) ([] : List Nat)).flatten = [] := by
            induction (m - op) with
            | zero => rfl
            | succ n ihn => simp [List.replicate, ihn]
          rw [← h.1]
          rw [List.flatten_append, hrep, List.append_nil]
          exact hfl

theorem optimizedRun_eq (jobs : List Nat) (m op : Nat) (s0 : List (List Nat))
    (l0 : List Nat) (hg : get_optimal_processors jobs m = some op)
    (hl : lpt_algorithm jobs op = some (s0, l0)) :
    optimizedRun jobs m =
      some (s0 ++ List.replicate (m - op) [], l0 ++ List.replicate (m - op) 0) := by
  simp only [optimizedRun, hg, hl]

/-! ### Elementary lemmas for the approximation bound -/

theorem mem_le_listMax (l : List Nat) (x : Nat) (h : x ∈ l) : x ≤ listMax l := by
  induction l with
  | nil => simp at h
  | cons a t ih =>
      rcases List.mem_cons.1 h with h1 | h1
      · subst h1
        exact Nat.le_max_left _ _
      · exact le_trans (ih h1) (Nat.le_max_right a (listMax t))

theorem listMax_zero_or_mem (l : List Nat) : listMax l = 0 ∨ listMax l ∈ l := by
  induction l with
  | nil => exact Or.inl rfl
  | cons a t ih =>
      show (Nat.max a (listMax t) = 0) ∨ Nat.max a (listMax t) ∈ a :: t
      rcases Nat.le_total a (listMax t) with h5 | h5
      · have h6 : Nat.max a (listMax t) = listMax t := max_eq_right h5
        rw [h6]
        rcases ih with h7 | h7
        · have h8 : a = 0 := Nat.eq_zero_of_le_zero (h7 ▸ h5)
          rw [h7, ← h8]
          exact Or.inr (List.mem_cons_self _ _)
        · exact Or.inr (List.mem_cons_of_mem _ h7)
      · have h6 : Nat.max a (listMax t) = a := max_eq_left h5
        rw [h6]
        exact Or.inr (List.mem_cons_self _ _)

theorem elem_le_sum (l : List Nat) (x : Nat) (h : x ∈ l) : x ≤ l.sum := by
  induction l with
  | nil => simp at h
  | cons a t ih =>
      rw [List.sum_cons]
      rcases List.mem_cons.1 h with h1 | h1
      · subst h1
        exact Nat.le_add_right _ _
      · exact le_trans (ih h1) (Nat.le_add_left _ _)

theorem flatten_sum_le (Q : List (List Nat)) (B : Nat)
    (hB : ∀ q ∈ Q, q.sum ≤ B) : Q.flatten.sum ≤ Q.length * B := by
  induction Q with
  | nil => simp
  | cons q t ih =>
      have h1 := hB q (List.mem_cons_self _ _)
      have h2 := ih (fun r hr => hB r (List.mem_cons_of_mem _ hr))
      rw [List.flatten_cons, List.sum_append, List.length_cons, Nat.succ_mul]
      omega

theorem length_mul_le_sum (l : List Nat) (c : Nat) (h : ∀ x ∈ l, c ≤ x) :
    l.length * c ≤ l.sum := by
  induction l with
  | nil => simp
  | cons a t ih =>
      have h1 := h a (List.mem_cons_self _ _)
      have h2 := ih (fun x hx => h x (List.mem_cons_of_mem _ hx))
      rw [List.sum_cons, List.length_cons, Nat.succ_mul]
      omega

/-! ### Lemmas about the bins-loads correspondence -/

theorem sumEq_flatten_sum (s : List (List Nat)) (l : List Nat)
    (h : List.Forall₂ (fun q x => q.sum = x) s l) : s.flatten.sum = l.sum := by
  induction h with
  | nil => rfl
  | cons h1 h2 ih => simp only [List.flatten_cons, List.sum_append, List.sum_cons, h1, ih]

theorem sumEq_getD (s : List (List Nat)) (l : List Nat)
    (h : List.Forall₂ (fun q x => q.sum = x) s l) :
    ∀ i : Nat, i < s.length → (s.getD i []).sum = l.getD i 0 := by
  induction h with
  | nil => intro i hi; simp at hi
  | cons h1 h2 ih =>
      intro i hi
      cases i with
      | zero => simpa using h1
      | succ n =>
          simp only [List.getD_cons_succ]
          exact ih n (by simpa using hi)

theorem sumEq_set (s : List (List Nat)) (l : List Nat)
    (h : List.Forall₂ (fun q x => q.sum = x) s l) (a : List Nat) (b : Nat)
    (hab : a.sum = b) : ∀ i : Nat,
      List.Forall₂ (fun q x => q.sum = x) (s.set i a) (l.set i b) := by
  induction h with
  | nil => intro i; exact List.Forall₂.nil
  | cons h1 h2 ih =>
      intro i
      cases i with
      | zero => exact List.Forall₂.cons hab h2
      | succ n => exact List.Forall₂.cons h1 (ih n)

theorem sumEq_exists_load (s : List (List Nat)) (l : List Nat)
    (h : List.Forall₂ (fun q x => q.sum = x) s l) (q : List Nat) (hq : q ∈ s) :
    ∃ x ∈ l, q.sum = x := by
  induction h with
  | nil => simp at hq
  | cons h1 h2 ih =>
      rcases List.mem_cons.1 hq with h3 | h3
      · subst h3
        exact ⟨_, List.mem_cons_self _ _, h1⟩
      · obtain ⟨x, hx, hqx⟩ := ih h3
        exact ⟨x, List.mem_cons_of_mem _ hx, hqx⟩

theorem sumEq_replicate (m : Nat) :
    List.Forall₂ (fun (q : List Nat) (x : Nat) => q.sum = x)
      (List.replicate m []) (List.replicate m 0) := by
  induction m with
  | zero => exact List.Forall₂.nil
  | succ n ih => exact List.Forall₂.cons rfl ih

/-! ### Counting lemmas for the approximation bound -/

theorem countP_flatten_eq (pred : Nat → Bool) (Q : List (List Nat)) :
    Q.flatten.countP pred = (Q.map (fun q => q.countP pred)).sum := by
  induction Q with
  | nil => rfl
  | cons q t ih =>
      simp only [List.flatten_cons, List.countP_append, List.map_cons,
        List.sum_cons, ih]

theorem map_sum_le (Q : List (List Nat)) (g : List Nat → Nat) (c : Nat)
    (h : ∀ q ∈ Q, g q ≤ c) : (Q.map g).sum ≤ c * Q.length := by
  induction Q with
  | nil => simp
  | cons q t ih =>
      have h1 := h q (List.mem_cons_self _ _)
      have h2 := ih (fun r hr => h r (List.mem_cons_of_mem _ hr))
      rw [List.map_cons, List.sum_cons, List.length_cons, Nat.mul_succ]
      omega

theorem two_mul_length_le_flatten (s : List (List Nat)) (h : ∀ q ∈ s, q ≠ []) :
    2 * s.length ≤ s.flatten.length +
      s.countP (fun q => decide (q.length = 1)) := by
  induction s with
  | nil => simp
  | cons q t ih =>
      have hq : 0 < q.length := List.length_pos.mpr (h q (List.mem_cons_self _ _))
      have h2 := ih (fun r hr => h r (List.mem_cons_of_mem _ hr))
      rw [List.countP_cons, List.flatten_cons, List.length_append,
        List.length_cons]
      by_cases h1 : q.length = 1
      · rw [if_pos (decide_eq_true h1)]
        omega
      · rw [if_neg (fun hc => h1 (of_decide_eq_true hc))]
        omega

theorem length_le_flatten_length (s : List (List Nat)) (h : ∀ q ∈ s, q ≠ []) :
    s.length ≤ s.flatten.length := by
  induction s with
  | nil => simp
  | cons q t ih =>
      have hq : 0 < q.length := List.length_pos.mpr (h q (List.mem_cons_self _ _))
      have h2 := ih (fun r hr => h r (List.mem_cons_of_mem _ hr))
      rw [List.flatten_cons, List.length_append, List.length_cons]
      omega

theorem singles_le_countP (s : List (List Nat)) (l : List Nat)
    (pred : Nat → Bool) (h : List.Forall₂ (fun q x => q.sum = x) s l)
    (hl : ∀ x ∈ l, pred x = true) :
    s.countP (fun q => decide (q.length = 1)) ≤ s.flatten.countP pred := by
  induction h with
  | nil => simp
  | cons h1 h2 ih =>
      rename_i a b s1 l1
      have htail := ih (fun x hx => hl x (List.mem_cons_of_mem _ hx))
      rw [List.countP_cons, List.flatten_cons, List.countP_append]
      by_cases hlen : a.length = 1
      · obtain ⟨y, rfl⟩ := List.length_eq_one.mp hlen
        have hy : pred y = true := by
          have := hl b (List.mem_cons_self _ _)
          have hsum : y = b := by simpa using h1
          rw [hsum]
          exact this
        rw [if_pos (decide_eq_true hlen)]
        have : List.countP pred [y] = 1 := by simp [List.countP_cons, hy]
        omega
      · rw [if_neg (fun hc => hlen (of_decide_eq_true hc))]
        omega

theorem mul_countP_le_sum (p : Nat) (pred : Nat → Bool) (q : List Nat)
    (h : ∀ y, pred y = true → p ≤ y) : p * q.countP pred ≤ q.sum := by
  induction q with
  | nil => simp
  | cons a t ih =>
      rw [List.countP_cons, List.sum_cons]
      by_cases ha : pred a = true
      · have := h a ha
        rw [if_pos ha, Nat.mul_add, Nat.mul_one]
        omega
      · rw [if_neg ha, Nat.add_zero]
        omega

theorem big_heavy_counts (p B : Nat) (h2p : 2 * p ≤ B) (q : List Nat) :
    q.countP (fun y => decide (B < y + p)) ≤
        q.countP (fun y => decide (p ≤ y)) ∧
      (B + 1) * q.countP (fun y => decide (B < y + p)) +
          p * q.countP (fun y => decide (p ≤ y)) ≤
        q.sum + p * q.countP (fun y => decide (B < y + p)) +
          p * q.countP (fun y => decide (B < y + p)) := by
  induction q with
  | nil => simp
  | cons a t ih =>
      obtain ⟨ih1, ih2⟩ := ih
      rw [List.countP_cons, List.countP_cons, List.sum_cons]
      by_cases hb : B < a + p
      · have hh : p ≤ a := by omega
        rw [if_pos (decide_eq_true hb), if_pos (decide_eq_true hh)]
        refine ⟨by omega, ?_⟩
        simp only [Nat.mul_add, Nat.mul_one]
        omega
      · by_cases hh : p ≤ a
        · rw [if_neg (fun hc => hb (of_decide_eq_true hc)),
            if_pos (decide_eq_true hh), Nat.add_zero]
          refine ⟨by omega, ?_⟩
          simp only [Nat.mul_add, Nat.mul_one]
          omega
        · rw [if_neg (fun hc => hb (of_decide_eq_true hc)),
            if_neg (fun hc => hh (of_decide_eq_true hc)), Nat.add_zero,
            Nat.add_zero]
          exact ⟨ih1, by omega⟩

theorem bin_heavy_big_le_two (p B : Nat) (q : List Nat) (hq : q.sum ≤ B)
    (h3p : B + 1 ≤ 3 * p) (h2p : 2 * p ≤ B) :
    q.countP (fun y => decide (p ≤ y)) +
      q.countP (fun y => decide (B < y + p)) ≤ 2 := by
  obtain ⟨h1, h2⟩ := big_heavy_counts p B h2p q
  by_contra hc
  push_neg at hc
  generalize hcb : q.countP (fun y => decide (B < y + p)) = cb at h1 h2 hc
  generalize hch : q.countP (fun y => decide (p ≤ y)) = ch at h1 h2 hc
  rcases cb with _ | _ | k
  · have h4 : p * 3 ≤ p * ch := Nat.mul_le_mul_left p (by omega)
    omega
  · have h4 : p * 2 ≤ p * ch := Nat.mul_le_mul_left p (by omega)
    omega
  · have h4 : p * (k + 2) ≤ p * ch := Nat.mul_le_mul_left p (by omega)
    have h5 : (B + 1) * (k + 2) = (B + 1) * k + 2 * B + 2 := by ring
    have h6 : p * (k + 2) = p * k + 2 * p := by ring
    have h7 : p * k ≤ (B + 1) * k := Nat.mul_le_mul_right k (by omega)
    rw [h5, h6] at h2
    rw [h6] at h4
    omega

theorem bin_heavy_le_one (p B : Nat) (q : List Nat) (hq : q.sum ≤ B)
    (h2p : B < 2 * p) :
    q.countP (fun y => decide (p ≤ y)) ≤ 1 := by
  have h := mul_countP_le_sum p (fun y => decide (p ≤ y)) q
    (fun y hy => of_decide_eq_true hy)
  by_contra hc
  push_neg at hc
  have h4 : p * 2 ≤ p * q.countP (fun y => decide (p ≤ y)) :=
    Nat.mul_le_mul_left p hc
  omega

/-! ### Extracting a bounded partition from an optimal assignment -/

theorem flatten_map_cons_perm {κ : Type} [DecidableEq κ] (x : Nat)
    (F2 : κ → List Nat) (i0 : κ) :
    ∀ keys : List κ, keys.Nodup → i0 ∈ keys →
      ((keys.map (fun i => if i = i0 then x :: F2 i else F2 i)).flatten).Perm
        (x :: (keys.map F2).flatten) := by
  intro keys
  induction keys with
  | nil => intro _ hi0; simp at hi0
  | cons k t ih =>
      intro hnd hi0
      rcases List.mem_cons.1 hi0 with h1 | h1
      · have hnd1 : k ∉ t := (List.nodup_cons.1 hnd).1
        have htail : t.map (fun i => if i = i0 then x :: F2 i else F2 i) =
            t.map F2 := by
          apply List.map_congr_left
          intro a ha
          have : a ≠ i0 := fun he => hnd1 (h1 ▸ he ▸ ha)
          rw [if_neg this]
        rw [List.map_cons, htail, if_pos h1.symm, List.flatten_cons,
          List.map_cons, List.flatten_cons]
        have h2 : F2 k = F2 i0 := by rw [h1]
        rw [h2]
        exact List.Perm.refl _
      · have hk : k ≠ i0 := fun he => (List.nodup_cons.1 hnd).1 (he ▸ h1)
        rw [List.map_cons, List.map_cons, if_neg hk, List.flatten_cons,
          List.flatten_cons]
        refine (((ih (List.nodup_cons.1 hnd).2 h1)).append_left (F2 k)).trans ?_
        exact List.perm_middle

theorem fibers_flatten_perm {ι κ : Type} [DecidableEq κ] (f : ι → κ)
    (g : ι → Nat) (keys : List κ) (hnd : keys.Nodup) :
    ∀ J : List ι, (∀ j ∈ J, f j ∈ keys) →
      ((keys.map
        (fun i => (J.filter (fun j => decide (f j = i))).map g)).flatten).Perm
        (J.map g) := by
  intro J
  induction J with
  | nil =>
      intro _
      have : keys.map (fun i =>
          (([] : List ι).filter (fun j => decide (f j = i))).map g) =
          keys.map (fun _ => []) := by
        apply List.map_congr_left
        intro a _
        rfl
      rw [this, List.map_nil]
      have h0 : ∀ ks : List κ, (ks.map (fun _ => ([] : List Nat))).flatten = [] := by
        intro ks
        induction ks with
        | nil => rfl
        | cons _ _ ih2 => simp [ih2]
      rw [h0]
  | cons j J' ih =>
      intro hJ
      have hmapeq : keys.map
          (fun i => ((j :: J').filter (fun a => decide (f a = i))).map g) =
          keys.map (fun i => if i = f j
            then g j :: (J'.filter (fun a => decide (f a = i))).map g
            else (J'.filter (fun a => decide (f a = i))).map g) := by
        apply List.map_congr_left
        intro i _
        by_cases hfj : f j = i
        · rw [List.filter_cons, if_pos (decide_eq_true hfj), List.map_cons,
            if_pos hfj.symm]
        · rw [List.filter_cons, if_neg (fun hc => hfj (of_decide_eq_true hc)),
            if_neg (fun he => hfj he.symm)]
      rw [hmapeq, List.map_cons]
      refine (flatten_map_cons_perm (g j)
        (fun i => (J'.filter (fun a => decide (f a = i))).map g) (f j) keys hnd
        (hJ j (List.mem_cons_self _ _))).trans ?_
      exact (ih (fun a ha => hJ a (List.mem_cons_of_mem _ ha))).cons (g j)

theorem finRange_map_get (jobs : List Nat) :
    (List.finRange jobs.length).map jobs.get = jobs := by
  rw [← List.ofFn_eq_map, List.ofFn_get]

theorem exists_opt_partition (jobs : List Nat) (m : Nat) (hm : 0 < m) :
    ∃ Q : List (List Nat), Q.length = m ∧ Q.flatten.Perm jobs ∧
      ∀ q ∈ Q, q.sum ≤ optMakespan jobs m := by
  obtain ⟨f, _, hf⟩ := Finset.exists_mem_eq_inf'
    (Finset.univ_nonempty_iff.mpr
      ⟨fun (_ : Fin jobs.length) => (⟨0, hm⟩ : Fin m)⟩)
    (assignMakespan jobs m)
  refine ⟨(List.finRange m).map (fun i =>
    ((List.finRange jobs.length).filter (fun j => decide (f j = i))).map
      jobs.get), ?_, ?_, ?_⟩
  · rw [List.length_map, List.length_finRange]
  · have hp := fibers_flatten_perm f jobs.get (List.finRange m)
      (List.nodup_finRange m) (List.finRange jobs.length)
      (fun j _ => List.mem_finRange _)
    rwa [finRange_map_get] at hp
  · intro q hq
    obtain ⟨i, _, rfl⟩ := List.mem_map.1 hq
    have h1 : assignLoad jobs m f i ≤ assignMakespan jobs m f := by
      apply mem_le_listMax
      exact List.mem_map.2 ⟨i, List.mem_finRange i, rfl⟩
    have h2 : optMakespan jobs m = assignMakespan jobs m f := by
      rw [optMakespan, dif_pos hm]
      exact hf
    rw [h2]
    exact h1

theorem map_sum_add (Q : List (List Nat)) (f g : List Nat → Nat) :
    (Q.map (fun q => f q + g q)).sum = (Q.map f).sum + (Q.map g).sum := by
  induction Q with
  | nil => rfl
  | cons q t ih =>
      simp only [List.map_cons, List.sum_cons, ih]
      omega

/-- The combinatorial core of the LPT bound: if every bin of a `B`-bounded
partition `Q` of the jobs would be exceeded by the greedy step — the
minimum current load `L` plus the next job `p` of the descending order
overflows `B` — then `p` is small: `3p ≤ B`. -/
theorem key_no_overflow (B m p L : Nat) (Q s : List (List Nat))
    (l js : List Nat)
    (hQlen : Q.length = m)
    (hQB : ∀ q ∈ Q, q.sum ≤ B)
    (hsl : List.Forall₂ (fun q x => q.sum = x) s l)
    (hslen : s.length = m)
    (hperm : (s.flatten ++ (p :: js)).Perm Q.flatten)
    (horder : ∀ x ∈ s.flatten, p ≤ x)
    (hmin : ∀ x ∈ l, L ≤ x)
    (hover : B < L + p) :
    3 * p ≤ B := by
  by_contra hc
  push_neg at hc
  have hp1 : p ∈ s.flatten ++ (p :: js) :=
    List.mem_append.2 (Or.inr (List.mem_cons_self _ _))
  have hp2 : p ∈ Q.flatten := (hperm.mem_iff).1 hp1
  have hpB : p ≤ B := by
    obtain ⟨q, hqQ, hpq⟩ := List.mem_flatten.1 hp2
    exact le_trans (elem_le_sum q p hpq) (hQB q hqQ)
  have hsne : ∀ q ∈ s, q ≠ [] := by
    intro q hq hqnil
    obtain ⟨x, hx, hqx⟩ := sumEq_exists_load s l hsl q hq
    have h3 := hmin x hx
    rw [hqnil] at hqx
    simp at hqx
    omega
  have hheavy_placed :
      s.flatten.countP (fun y => decide (p ≤ y)) = s.flatten.length :=
    List.countP_eq_length.mpr (fun a ha => decide_eq_true (horder a ha))
  have hQheavy : Q.flatten.countP (fun y => decide (p ≤ y)) =
      s.flatten.countP (fun y => decide (p ≤ y)) +
        (p :: js).countP (fun y => decide (p ≤ y)) := by
    rw [← List.countP_append]
    exact (hperm.countP_eq _).symm
  have hheavy_head : (p :: js).countP (fun y => decide (p ≤ y)) =
      js.countP (fun y => decide (p ≤ y)) + 1 := by
    rw [List.countP_cons, if_pos (decide_eq_true (le_refl p))]
  have hQbig : Q.flatten.countP (fun y => decide (B < y + p)) =
      s.flatten.countP (fun y => decide (B < y + p)) +
        (p :: js).countP (fun y => decide (B < y + p)) := by
    rw [← List.countP_append]
    exact (hperm.countP_eq _).symm
  have hsingle : s.countP (fun q => decide (q.length = 1)) ≤
      s.flatten.countP (fun y => decide (B < y + p)) := by
    apply singles_le_countP s l _ hsl
    intro x hx
    have h3 := hmin x hx
    exact decide_eq_true (by omega)
  have h2len : 2 * s.length ≤ s.flatten.length +
      s.countP (fun q => decide (q.length = 1)) :=
    two_mul_length_le_flatten s hsne
  by_cases h2p : 2 * p ≤ B
  · have hbins : ∀ q ∈ Q,
        q.countP (fun y => decide (p ≤ y)) +
          q.countP (fun y => decide (B < y + p)) ≤ 2 :=
      fun q hq => bin_heavy_big_le_two p B q (hQB q hq) (by omega) h2p
    have hsum : Q.flatten.countP (fun y => decide (p ≤ y)) +
        Q.flatten.countP (fun y => decide (B < y + p)) ≤ 2 * m := by
      rw [countP_flatten_eq, countP_flatten_eq, ← map_sum_add]
      have h4 := map_sum_le Q
        (fun q => q.countP (fun y => decide (p ≤ y)) +
          q.countP (fun y => decide (B < y + p))) 2 hbins
      rw [hQlen] at h4
      omega
    omega
  · have hbins : ∀ q ∈ Q, q.countP (fun y => decide (p ≤ y)) ≤ 1 :=
      fun q hq => bin_heavy_le_one p B q (hQB q hq) (by omega)
    have hsum : Q.flatten.countP (fun y => decide (p ≤ y)) ≤ m := by
      rw [countP_flatten_eq]
      have h4 := map_sum_le Q (fun q => q.countP (fun y => decide (p ≤ y)))
        1 hbins
      rw [hQlen] at h4
      omega
    have hmlen : s.length ≤ s.flatten.length :=
      length_le_flatten_length s hsne
    omega

/-- Main invariant of the greedy loop: with a `B`-bounded partition `Q` of
all remaining-plus-placed jobs available, every load stays below
`(4m-1)·B / 3m`. -/
theorem lptLoop_load_bound (B m : Nat) (hm : 1 ≤ m) (Q : List (List Nat))
    (hQlen : Q.length = m) (hQB : ∀ q ∈ Q, q.sum ≤ B) :
    ∀ (js : List Nat) (s : List (List Nat)) (l : List Nat)
      (s2 : List (List Nat)) (l2 : List Nat),
      js.Sorted (· ≥ ·) →
      List.Forall₂ (fun q x => q.sum = x) s l →
      s.length = m →
      (s.flatten ++ js).Perm Q.flatten →
      (∀ x ∈ s.flatten, ∀ y ∈ js, y ≤ x) →
      (∀ x ∈ l, 3 * m * x ≤ (4 * m - 1) * B) →
      lptLoop js s l = some (s2, l2) →
      ∀ x ∈ l2, 3 * m * x ≤ (4 * m - 1) * B := by
  obtain ⟨m', rfl⟩ : ∃ m', m = m' + 1 := ⟨m - 1, by omega⟩
  intro js
  induction js with
  | nil =>
      intro s l s2 l2 _ _ _ _ _ hload h
      simp only [lptLoop, Option.some.injEq, Prod.mk.injEq] at h
      rw [← h.2]
      exact hload
  | cons p js' ih =>
      intro s l s2 l2 hsort hsl hslen hperm horder hload h
      have hllen : l.length = m' + 1 := by rw [← hsl.length_eq]; exact hslen
      have hlne : l ≠ [] := by
        intro hcc
        rw [hcc] at hllen
        simp at hllen
      have hmp := minloadproc_eq_lowestMinIdx l hlne
      rw [lptLoop, hmp] at h
      have hilt : lowestMinIdx l < l.length := minloadproc_lt_length l _ hmp
      have hilt2 : lowestMinIdx l < s.length := by omega
      have hLmin : ∀ x ∈ l, l.getD (lowestMinIdx l) 0 ≤ x :=
        minloadproc_getD_min l _ hmp
      have hb4 : 4 * (m' + 1) - 1 = 4 * m' + 3 := by omega
      have hnew : 3 * (m' + 1) * (l.getD (lowestMinIdx l) 0 + p) ≤
          (4 * (m' + 1) - 1) * B := by
        rw [hb4]
        by_cases hover : l.getD (lowestMinIdx l) 0 + p ≤ B
        · have e1 : 3 * (m' + 1) * (l.getD (lowestMinIdx l) 0 + p) ≤
              3 * (m' + 1) * B := Nat.mul_le_mul_left _ hover
          have e2 : 3 * (m' + 1) * B = 3 * ((m' + 1) * B) := by ring
          have e3 : (4 * m' + 3) * B = 3 * ((m' + 1) * B) + m' * B := by
            ring
          omega
        · have h3p : 3 * p ≤ B := by
            refine key_no_overflow B (m' + 1) p (l.getD (lowestMinIdx l) 0) Q s
              l js' hQlen hQB hsl hslen hperm ?_ hLmin (by omega)
            intro x hx
            exact horder x hx p (List.mem_cons_self _ _)
          have hsumflat : s.flatten.sum = l.sum := sumEq_flatten_sum s l hsl
          have hSsum : l.sum + (p + js'.sum) = Q.flatten.sum := by
            have := hperm.sum_eq
            rw [List.sum_append, List.sum_cons, hsumflat] at this
            omega
          have hQsum : Q.flatten.sum ≤ (m' + 1) * B := by
            have h5 := flatten_sum_le Q B hQB
            rw [hQlen] at h5
            exact h5
          have hminsum : (m' + 1) * l.getD (lowestMinIdx l) 0 ≤ l.sum := by
            have h5 := length_mul_le_sum l (l.getD (lowestMinIdx l) 0) hLmin
            rw [hllen] at h5
            calc (m' + 1) * l.getD (lowestMinIdx l) 0
                = l.getD (lowestMinIdx l) 0 * (m' + 1) := by ring
              _ ≤ l.sum := by rw [Nat.mul_comm]; exact h5
          have hm3p : 3 * (m' * p) ≤ m' * B := by
            have h5 : m' * (3 * p) ≤ m' * B := Nat.mul_le_mul_left m' h3p
            have h6 : m' * (3 * p) = 3 * (m' * p) := by ring
            omega
          have e1 : 3 * (m' + 1) * (l.getD (lowestMinIdx l) 0 + p) =
              3 * ((m' + 1) * l.getD (lowestMinIdx l) 0) + 3 * (m' * p) +
                3 * p := by ring
          have e2 : (4 * m' + 3) * B = 4 * (m' * B) + 3 * B := by ring
          have e4 : (m' + 1) * B = m' * B + B := by ring
          omega
      have hsort2 : js'.Sorted (· ≥ ·) := (List.sorted_cons.1 hsort).2
      have hhead : ∀ b ∈ js', p ≥ b := (List.sorted_cons.1 hsort).1
      have hbinsum : (s.getD (lowestMinIdx l) [] ++ [p]).sum =
          l.getD (lowestMinIdx l) 0 + p := by
        rw [List.sum_append, List.sum_cons, List.sum_nil,
          sumEq_getD s l hsl _ hilt2]
        omega
      have hsl2 := sumEq_set s l hsl _ _ hbinsum (lowestMinIdx l)
      have hslen2 : (s.set (lowestMinIdx l)
          (s.getD (lowestMinIdx l) [] ++ [p])).length = m' + 1 := by
        rw [List.length_set]; exact hslen
      have hjoin : (s.set (lowestMinIdx l)
          (s.getD (lowestMinIdx l) [] ++ [p])).flatten.Perm
          (p :: s.flatten) := join_set_append s _ hilt2 p
      have hperm2 : ((s.set (lowestMinIdx l)
          (s.getD (lowestMinIdx l) [] ++ [p])).flatten ++ js').Perm
          Q.flatten := by
        refine ((hjoin.append_right js').trans ?_)
        exact (List.perm_middle.symm).trans hperm
      have horder2 : ∀ x ∈ (s.set (lowestMinIdx l)
          (s.getD (lowestMinIdx l) [] ++ [p])).flatten, ∀ y ∈ js', y ≤ x := by
        intro x hx y hy
        rcases List.mem_cons.1 ((hjoin.mem_iff).1 hx) with h1 | h1
        · rw [h1]; exact hhead y hy
        · exact horder x h1 y (List.mem_cons_of_mem _ hy)
      have hload2 : ∀ x ∈ l.set (lowestMinIdx l)
          (l.getD (lowestMinIdx l) 0 + p),
          3 * (m' + 1) * x ≤ (4 * (m' + 1) - 1) * B := by
        intro x hx
        rcases List.mem_or_eq_of_mem_set hx with h1 | h1
        · exact hload x h1
        · rw [h1]; exact hnew
      exact ih _ _ _ _ hsort2 hsl2 hslen2 hperm2 horder2 hload2 h

/-! ### Claim theorems -/

/-- C1: for every job list and every `processors ≥ 1`, `lpt_algorithm` assigns
the jobs in the order of a descending sort of the job lengths (on bare lengths
the stable descending sort is exactly the unique `≥`-sorted permutation of the
input), starting from `processors` empty bins and zero loads, and each job is
appended to the bin whose current load is minimal — the lowest-indexed such
bin on ties — whose load counter then grows by that job's length
(`claimStep`). -/
theorem lpt_assigns_sorted_greedy (jobs : List Nat) (m : Nat) (hm : 1 ≤ m) :
    ∃ sorted : List Nat, sorted.Perm jobs ∧ sorted.Sorted (· ≥ ·) ∧
      lpt_algorithm jobs m =
        some (sorted.foldl claimStep (List.replicate m [], List.replicate m 0)) :=
  ⟨List.insertionSort (· ≥ ·) jobs, List.perm_insertionSort _ jobs,
    List.sorted_insertionSort _ jobs, lpt_algorithm_eq_foldl jobs m hm⟩

/-- Witness for C1 at `jobs = [4, 4, 7]`, `processors = 2`. -/
theorem lpt_assigns_sorted_greedy_witness :
    1 ≤ 2 ∧ ∃ sorted : List Nat, sorted.Perm [4, 4, 7] ∧
      sorted.Sorted (· ≥ ·) ∧
      lpt_algorithm [4, 4, 7] 2 =
        some (sorted.foldl claimStep (List.replicate 2 [], List.replicate 2 0)) :=
  ⟨by decide, lpt_assigns_sorted_greedy [4, 4, 7] 2 (by decide)⟩

/-- C2 counterexample: at `jobs = [0]`, `processors = 1` the claim promises a
successful padded result (the plain scheduler succeeds on `[0]` with any
`processors ≥ 1`), but `OptimizedLPT.run` divides by `max(jobs) = 0` and
fails, returning nothing. -/
theorem optimizedRun_all_zero_counterexample :
    optimizedRun [0] 1 = none ∧ lpt_algorithm [0] 1 = some ([[0]], [0]) := by
  decide

/-- C2 (amended): for every job list whose maximum length is positive (in
particular non-empty) and every `processors ≥ 1`, `optimizedRun` returns
exactly the `lpt_algorithm` result on `p = min(ceil(sum/max), processors)`
processors, extended at the tail with `processors − p` empty bins and
`processors − p` zero loads. -/
theorem optimizedRun_refines_lpt (jobs : List Nat) (m : Nat)
    (hpos : 0 < jobs.foldl Nat.max 0) (hm : 1 ≤ m) :
    (lpt_algorithm jobs (claimOptimalP jobs m)).isSome = true ∧
    optimizedRun jobs m =
      (lpt_algorithm jobs (claimOptimalP jobs m)).map
        (fun r => (r.1 ++ List.replicate (m - claimOptimalP jobs m) [],
                   r.2 ++ List.replicate (m - claimOptimalP jobs m) 0)) := by
  cases jobs with
  | nil => simp at hpos
  | cons j rest =>
      have hmax : pyMax j rest ≠ 0 := by
        rw [foldl_max_zero] at hpos
        omega
      have h1 : 1 ≤ (j :: rest).sum ⌈/⌉ ((j :: rest).foldl Nat.max 0) := by
        rw [foldl_max_zero, Nat.ceilDiv_eq_add_pred_div]
        have hmem := pyMax_mem rest j
        have hsum : pyMax j rest ≤ (j :: rest).sum :=
          List.single_le_sum (fun y _ => Nat.zero_le y) _ hmem
        have h0 : 0 < pyMax j rest := Nat.pos_of_ne_zero hmax
        rw [Nat.one_le_div_iff h0]
        omega
      have hp1 : 1 ≤ claimOptimalP (j :: rest) m := le_min h1 hm
      have hlpt := lpt_algorithm_eq_foldl (j :: rest) _ hp1
      have hg := get_optimal_some j rest hmax m
      obtain ⟨s0, l0, hF⟩ : ∃ s0 l0,
          (List.insertionSort (· ≥ ·) (j :: rest)).foldl claimStep
            (List.replicate (claimOptimalP (j :: rest) m) [],
             List.replicate (claimOptimalP (j :: rest) m) 0) = (s0, l0) :=
        ⟨_, _, rfl⟩
      rw [hF] at hlpt
      constructor
      · rw [hlpt]
        rfl
      · rw [optimizedRun_eq (j :: rest) m _ s0 l0 hg hlpt, hlpt]
        rfl

/-- Witness for the amended C2 at `jobs = [1, 1, 1, 1]`, `processors = 10`
(spec scenario 4: four active bins and six trailing idle ones). -/
theorem optimizedRun_refines_lpt_witness :
    (0 < ([1, 1, 1, 1] : List Nat).foldl Nat.max 0 ∧ 1 ≤ 10) ∧
    ((lpt_algorithm [1, 1, 1, 1] (claimOptimalP [1, 1, 1, 1] 10)).isSome = true ∧
     optimizedRun [1, 1, 1, 1] 10 =
       (lpt_algorithm [1, 1, 1, 1] (claimOptimalP [1, 1, 1, 1] 10)).map
         (fun r => (r.1 ++ List.replicate (10 - claimOptimalP [1, 1, 1, 1] 10) [],
                    r.2 ++ List.replicate (10 - claimOptimalP [1, 1, 1, 1] 10) 0))) :=
  ⟨⟨by decide, by decide⟩,
    optimizedRun_refines_lpt [1, 1, 1, 1] 10 (by decide) (by decide)⟩

/-- C3: for every input accepted by either operation, the returned loads sum
to the sum of the input job lengths. -/
theorem loads_sum_conservation :
    (∀ (jobs : List Nat) (m : Nat) (s : List (List Nat)) (l : List Nat),
        lpt_algorithm jobs m = some (s, l) → l.sum = jobs.sum) ∧
    (∀ (jobs : List Nat) (m : Nat) (s : List (List Nat)) (l : List Nat),
        optimizedRun jobs m = some (s, l) → l.sum = jobs.sum) :=
  ⟨lpt_algorithm_sum, optimizedRun_sum⟩

/-- Witness for C3: the plain scheduler on `([5, 6, 4], 2)` and the optimized
scheduler on `([2, 2], 3)`. -/
theorem loads_sum_conservation_witness :
    ([6, 9] : List Nat).sum = ([5, 6, 4] : List Nat).sum ∧
    ([2, 2, 0] : List Nat).sum = ([2, 2] : List Nat).sum :=
  ⟨loads_sum_conservation.1 [5, 6, 4] 2 [[6], [5, 4]] [6, 9] (by decide),
   loads_sum_conservation.2 [2, 2] 3 [[2], [2], []] [2, 2, 0] (by decide)⟩

/-- C4: for every input accepted by either operation, the multiset union of
the returned bins' contents equals the input multiset of job lengths. -/
theorem jobs_multiset_conservation :
    (∀ (jobs : List Nat) (m : Nat) (s : List (List Nat)) (l : List Nat),
        lpt_algorithm jobs m = some (s, l) →
          (s.flatten : Multiset Nat) = (jobs : Multiset Nat)) ∧
    (∀ (jobs : List Nat) (m : Nat) (s : List (List Nat)) (l : List Nat),
        optimizedRun jobs m = some (s, l) →
          (s.flatten : Multiset Nat) = (jobs : Multiset Nat)) :=
  ⟨fun jobs m s l h => Multiset.coe_eq_coe.mpr (lpt_algorithm_flatten jobs m s l h),
   fun jobs m s l h => Multiset.coe_eq_coe.mpr (optimizedRun_flatten jobs m s l h)⟩

/-- Witness for C4: the plain scheduler on `([7, 8], 1)` and the optimized
scheduler on `([4, 2, 2], 6)`. -/
theorem jobs_multiset_conservation_witness :
    (([8, 7] : List Nat) : Multiset Nat) = (([7, 8] : List Nat) : Multiset Nat) ∧
    (([4, 2, 2] : List Nat) : Multiset Nat) =
      (([4, 2, 2] : List Nat) : Multiset Nat) :=
  ⟨jobs_multiset_conservation.1 [7, 8] 1 [[8, 7]] [15] (by decide),
   jobs_multiset_conservation.2 [4, 2, 2] 6 [[4], [2, 2], [], [], [], []]
     [4, 4, 0, 0, 0, 0] (by decide)⟩

/-- C6: `lpt_algorithm [3, 1, 6, 4, 5, 2] 2` sorts the jobs to
`[6, 5, 4, 3, 2, 1]` and the greedy rule yields loads `[11, 10]`. -/
theorem lpt_example_trace :
    lpt_algorithm [3, 1, 6, 4, 5, 2] 2 = some ([[6, 3, 2], [5, 4, 1]], [11, 10]) := by
  decide

/-- C7: the claim mandates that every `processors < 1` call fail with an
InvalidInput error.  The code diverges: on the empty job list with
`processors = 0` it succeeds, returning no bins at all, and on a non-empty
job list it fails only via an unhandled `ValueError` deep inside `min([])`,
not an upfront validation error. -/
theorem lpt_zero_processors_divergence :
    lpt_algorithm [] 0 = some ([], []) ∧ lpt_algorithm [5] 0 = none := by decide

/-- C8: `OptimizedLPT.run` on an empty job list fails (`max([])` raises) for
every processor count, returning nothing. -/
theorem optimized_empty_jobs_fails :
    ∀ processors : Nat, optimizedRun [] processors = none :=
  fun _ => rfl

/-- C9: whenever either operation returns, the schedule and the loads both
have exactly `processors` entries — for the optimized variant, after
padding. -/
theorem bin_count_eq_processors :
    (∀ (jobs : List Nat) (m : Nat) (s : List (List Nat)) (l : List Nat),
        lpt_algorithm jobs m = some (s, l) → s.length = m ∧ l.length = m) ∧
    (∀ (jobs : List Nat) (m : Nat) (s : List (List Nat)) (l : List Nat),
        optimizedRun jobs m = some (s, l) → s.length = m ∧ l.length = m) :=
  ⟨lpt_algorithm_lengths, optimizedRun_lengths⟩

/-- Witness for C9: the plain scheduler on `([9], 3)` and the optimized
scheduler on `([3, 3, 3], 5)`. -/
theorem bin_count_eq_processors_witness :
    (([[9], [], []] : List (List Nat)).length = 3 ∧
      ([9, 0, 0] : List Nat).length = 3) ∧
    (([[3], [3], [3], [], []] : List (List Nat)).length = 5 ∧
      ([3, 3, 3, 0, 0] : List Nat).length = 5) :=
  ⟨bin_count_eq_processors.1 [9] 3 [[9], [], []] [9, 0, 0] (by decide),
   bin_count_eq_processors.2 [3, 3, 3] 5 [[3], [3], [3], [], []]
     [3, 3, 3, 0, 0] (by decide)⟩

/-- C10: on a non-empty loads list `_minloadproc` always returns a valid
index in `[0, len(loads))` whose load is minimal; the implicit fall-through
returning `None` is unreachable. -/
theorem minloadproc_total (loads : List Nat) (h : loads ≠ []) :
    ∃ i, minloadproc loads = some i ∧ i < loads.length ∧
      ∀ y ∈ loads, loads.getD i 0 ≤ y :=
  ⟨lowestMinIdx loads, minloadproc_eq_lowestMinIdx loads h,
    minloadproc_lt_length loads _ (minloadproc_eq_lowestMinIdx loads h),
    minloadproc_getD_min loads _ (minloadproc_eq_lowestMinIdx loads h)⟩

/-- Witness for C10 at `loads = [3, 1, 2]`. -/
theorem minloadproc_total_witness :
    ([3, 1, 2] : List Nat) ≠ [] ∧
    ∃ i, minloadproc [3, 1, 2] = some i ∧ i < ([3, 1, 2] : List Nat).length ∧
      ∀ y ∈ ([3, 1, 2] : List Nat), ([3, 1, 2] : List Nat).getD i 0 ≤ y :=
  ⟨by decide, minloadproc_total [3, 1, 2] (by decide)⟩

/-- C5: for every job list and every `processors = m ≥ 1`, the makespan
`max(Loads)` of the schedule returned by `lpt_algorithm` is at most
`(4/3 − 1/(3m))` times the optimal makespan (the minimum over all
assignments of the jobs to `m` bins of the maximum bin load) — stated over
the naturals with denominators cleared:
`3·m·max(Loads) ≤ (4·m − 1)·optMakespan`. -/
theorem lpt_approximation_bound (jobs : List Nat) (m : Nat) (hm : 1 ≤ m)
    (s : List (List Nat)) (l : List Nat)
    (h : lpt_algorithm jobs m = some (s, l)) :
    3 * m * listMax l ≤ (4 * m - 1) * optMakespan jobs m := by
  obtain ⟨Q, hQlen, hQperm, hQB⟩ := exists_opt_partition jobs m (by omega)
  have hrep : (List.replicate m ([] : List Nat)).flatten = [] := by
    induction m with
    | zero => rfl
    | succ n ihn => simp [List.replicate, ihn]
  have hperm0 : ((List.replicate m ([] : List Nat)).flatten ++
      List.insertionSort (· ≥ ·) jobs).Perm Q.flatten := by
    rw [hrep, List.nil_append]
    exact (List.perm_insertionSort _ jobs).trans hQperm.symm
  have hbound := lptLoop_load_bound (optMakespan jobs m) m hm Q hQlen hQB
    (List.insertionSort (· ≥ ·) jobs) (List.replicate m [])
    (List.replicate m 0) s l
    (List.sorted_insertionSort _ jobs) (sumEq_replicate m)
    (by rw [List.length_replicate]) hperm0
    (by intro x hx; rw [hrep] at hx; exact absurd hx (List.not_mem_nil x))
    (by intro x hx; rw [List.eq_of_mem_replicate hx]; simp)
    h
  rcases listMax_zero_or_mem l with h0 | hmem
  · rw [h0]
    simp
  · exact hbound _ hmem

/-- Witness for C5 at `jobs = [2, 1]`, `processors = 1`, where the returned
loads are `[3]`. -/
theorem lpt_approximation_bound_witness :
    3 * 1 * listMax [3] ≤ (4 * 1 - 1) * optMakespan [2, 1] 1 :=
  lpt_approximation_bound [2, 1] 1 (by decide) [[2, 1]] [3] (by decide)
